import Mathlib

/-!
Verification of the snowball-option pricer (`snowball_option` in
`snowball_option-demo.ipynb`).

The Python function is embedded shallowly over `ℝ`:

* `np.log`, `np.exp`, `np.sqrt` become `Real.log`, `Real.exp`, `Real.sqrt`
  (Lean's junk-value conventions `Real.log x = 0` for `x ≤ 0`, `x / 0 = 0`
  stand in for the IEEE `nan`/`inf` results of the float code; claims about
  definedness are phrased through the predicate `value_defined` below);
* `sp.norm.cdf` becomes `normCDF`, the integral of the standard normal
  density `normalPDF` over `Iic x`;
* the call `np.random.normal (mu, s)` in iteration `i` is modelled as
  `mu + s * z i`, where `z : ℕ → ℝ` is the sequence of underlying standard
  normal variates — the claims quantify over every realization `z`;
* `np.mean v` becomes `(∑ i, v i) / n`, `np.maximum a 0` becomes `max a 0`.

The function performs no parameter validation and raises nothing; its
error-channel embedding `snowball_option_run` is therefore constantly
`Except.ok`.
-/

open MeasureTheory Real Set

noncomputable section

namespace Snowball

/-- Density of the standard normal distribution, `φ(x) = e^(-x²/2)/√(2π)`. -/
def normalPDF (x : ℝ) : ℝ := (Real.sqrt (2 * Real.pi))⁻¹ * Real.exp (-(1 / 2) * x ^ 2)

/-- Standard normal cumulative distribution function, the model of
`sp.norm.cdf`: `Φ(x) = ∫_{-∞}^{x} φ`. -/
def normCDF (x : ℝ) : ℝ := ∫ t in Set.Iic x, normalPDF t

/-- Source line `d1 = (np.log(S / X) + (r - q + 0.5 * sigma ** 2) * T) / (sigma * np.sqrt(T))`. -/
def d1 (S X T r q sigma : ℝ) : ℝ :=
  (Real.log (S / X) + (r - q + 0.5 * sigma ^ 2) * T) / (sigma * Real.sqrt T)

/-- Source line `d2 = d1 - sigma * np.sqrt(T)`. -/
def d2 (S X T r q sigma : ℝ) : ℝ := d1 S X T r q sigma - sigma * Real.sqrt T

/-- Source line
`call_price = S * np.exp(-q * T) * sp.norm.cdf(d1) - X * np.exp(-r * T) * sp.norm.cdf(d2)`.
The same formula is reused verbatim by the loop body for `value_i`, with
`S_i` and the remaining maturity in place of `S` and `T`. -/
def call_price (S X T r q sigma : ℝ) : ℝ :=
  S * Real.exp (-q * T) * normCDF (d1 S X T r q sigma)
    - X * Real.exp (-r * T) * normCDF (d2 S X T r q sigma)

/-- Source line
`r_i = np.random.normal((r - 0.5 * sigma ** 2) * T / 365, sigma * np.sqrt(T / 365))`,
with the draw realized as mean + sd * z for a standard normal variate z. -/
def r_i (r sigma T : ℝ) (z : ℝ) : ℝ :=
  (r - 0.5 * sigma ^ 2) * T / 365 + sigma * Real.sqrt (T / 365) * z

/-- Source line `S_i = S * (1 + k * r_i)`. -/
def S_i (S k ri : ℝ) : ℝ := S * (1 + k * ri)

/-- The remaining-maturity expression `(T - i * T / n_simulations)` appearing
inline in the loop body. -/
def tau (T : ℝ) (n i : ℕ) : ℝ := T - i * T / n

/-- Entry `prices[i]` of the simulated price array: `S_i` computed from draw `i`. -/
def prices (S T r sigma k : ℝ) (z : ℕ → ℝ) (i : ℕ) : ℝ :=
  S_i S k (r_i r sigma T (z i))

/-- Entry `values[i]`: the BSM call formula evaluated at `S_i`, strike `X`,
maturity `T - i * T / n_simulations`, with `r`, `q`, `sigma` unchanged. -/
def values (S X T r q sigma k : ℝ) (n : ℕ) (z : ℕ → ℝ) (i : ℕ) : ℝ :=
  call_price (prices S T r sigma k z i) X (tau T n i) r q sigma

/-- One term `np.maximum(k * prices + (1 - k) * values, 0)[i]` of the
aggregation step. -/
def payoff (S X T r q sigma k : ℝ) (n : ℕ) (z : ℕ → ℝ) (i : ℕ) : ℝ :=
  max (k * prices S T r sigma k z i + (1 - k) * values S X T r q sigma k n z i) 0

/-- The returned value
`option_price = (1 - p) * call_price + p * np.mean(np.maximum(k * prices + (1 - k) * values, 0))`,
with `np.mean` of an `n`-vector embedded as sum divided by `n`. -/
def snowball_option (S X T r q sigma k p : ℝ) (n : ℕ) (z : ℕ → ℝ) : ℝ :=
  (1 - p) * call_price S X T r q sigma
    + p * ((∑ i in Finset.range n, payoff S X T r q sigma k n z i) / n)

/-- Error taxonomy of the spec (§7). -/
inductive SnowballError
  | InvalidParameter
  | NumericDomainError

/-- Error-channel view of the source function. The Python body contains no
validation and no raise statement on any path, so its embedding into
`Except` is constantly `Except.ok` of the computed value. -/
def snowball_option_run (S X T r q sigma k p : ℝ) (n : ℕ) (z : ℕ → ℝ) :
    Except SnowballError ℝ :=
  Except.ok (snowball_option S X T r q sigma k p n z)

/-- Modelled from the spec (§4.1 step 1): the closed-form Black-Scholes-Merton
call value `S·e^(-qT)·Φ(d1) - X·e^(-rT)·Φ(d2)` with
`d1 = (ln(S/X) + (r - q + 0.5σ²)T)/(σ√T)` and `d2 = d1 - σ√T`, written from
the spec's words for comparison against the source's `call_price`. -/
def bsmCallSpec (S X T r q sigma : ℝ) : ℝ :=
  (S * Real.exp (-q * T) *
      normCDF ((Real.log (S / X) + (r - q + 0.5 * sigma ^ 2) * T) / (sigma * Real.sqrt T)))
    - X * Real.exp (-r * T) *
      normCDF ((Real.log (S / X) + (r - q + 0.5 * sigma ^ 2) * T) / (sigma * Real.sqrt T)
        - sigma * Real.sqrt T)

/-- Definedness of the float computation of `values[i]`: the argument of
`np.log` is positive and the divisor `sigma * np.sqrt(tau)` is nonzero, so
the float evaluation of `value_i` produces an ordinary real number rather
than `nan`. -/
def value_defined (S X T r sigma k : ℝ) (n : ℕ) (z : ℕ → ℝ) (i : ℕ) : Prop :=
  0 < prices S T r sigma k z i / X ∧ sigma * Real.sqrt (tau T n i) ≠ 0

/- ### Shared helper lemmas -/

/-- The source's `call_price` coincides with the spec's closed form. -/
theorem call_price_eq_spec (S X T r q sigma : ℝ) :
    call_price S X T r q sigma = bsmCallSpec S X T r q sigma := by
  simp [call_price, bsmCallSpec, d1, d2]

/-- Remaining maturity is positive for every executed draw. -/
theorem tau_pos {T : ℝ} (hT : 0 < T) {n i : ℕ} (hi : i < n) : 0 < tau T n i := by
  have hn : (0 : ℝ) < n := by
    exact_mod_cast Nat.pos_of_ne_zero (by rintro rfl; exact Nat.not_lt_zero _ hi)
  have hin : (i : ℝ) < n := by exact_mod_cast hi
  have : (i : ℝ) * T / n < T := by
    rw [div_lt_iff₀ hn]
    calc (i : ℝ) * T < n * T := by
          exact mul_lt_mul_of_pos_right hin hT
      _ = T * n := mul_comm _ _
  simpa [tau, sub_pos] using this

/-- Remaining maturity strictly decreases with the draw index. -/
theorem tau_strict_anti {T : ℝ} (hT : 0 < T) {n i j : ℕ} (hij : i < j) (hj : j < n) :
    tau T n j < tau T n i := by
  have hn : (0 : ℝ) < n := by
    exact_mod_cast Nat.pos_of_ne_zero (by rintro rfl; exact Nat.not_lt_zero _ hj)
  have hij' : (i : ℝ) < j := by exact_mod_cast hij
  have h : (i : ℝ) * T < (j : ℝ) * T := mul_lt_mul_of_pos_right hij' hT
  have h2 : (i : ℝ) * T / n < (j : ℝ) * T / n := (div_lt_div_iff_of_pos_right hn).mpr h
  simpa [tau, sub_lt_sub_iff_left] using h2

/- ### Properties of the standard normal density and CDF -/

theorem normalPDF_nonneg (x : ℝ) : 0 ≤ normalPDF x :=
  mul_nonneg (inv_nonneg.mpr (Real.sqrt_nonneg _)) (Real.exp_pos _).le

theorem integrable_normalPDF : Integrable normalPDF :=
  (integrable_exp_neg_mul_sq (by norm_num : (0:ℝ) < 1 / 2)).const_mul _

theorem integral_normalPDF : ∫ x, normalPDF x = 1 := by
  have h2pi : (0:ℝ) < 2 * Real.pi := by positivity
  rw [show normalPDF = fun x => (Real.sqrt (2 * Real.pi))⁻¹ * Real.exp (-(1 / 2) * x ^ 2) from rfl,
    MeasureTheory.integral_mul_left, integral_gaussian]
  rw [show Real.pi / (1 / 2) = 2 * Real.pi by ring]
  exact inv_mul_cancel₀ (Real.sqrt_ne_zero'.mpr h2pi)

theorem normCDF_nonneg (x : ℝ) : 0 ≤ normCDF x :=
  setIntegral_nonneg measurableSet_Iic fun t _ => normalPDF_nonneg t

theorem normCDF_le_one (x : ℝ) : normCDF x ≤ 1 := by
  calc normCDF x ≤ ∫ t, normalPDF t :=
        setIntegral_le_integral integrable_normalPDF (ae_of_all _ normalPDF_nonneg)
    _ = 1 := integral_normalPDF

theorem normCDF_mono {a b : ℝ} (hab : a ≤ b) : normCDF a ≤ normCDF b :=
  setIntegral_mono_set integrable_normalPDF.integrableOn
    (ae_of_all _ normalPDF_nonneg)
    (HasSubset.Subset.eventuallyLE (Set.Iic_subset_Iic.mpr hab))

/-- Translation of a Lebesgue set integral over a left-infinite interval. -/
theorem setIntegral_Iic_comp_add (f : ℝ → ℝ) (a s : ℝ) :
    ∫ t in Set.Iic a, f (t + s) = ∫ t in Set.Iic (a + s), f t := by
  have hemb : MeasurableEmbedding (fun t : ℝ => t + s) :=
    (Homeomorph.addRight s).isClosedEmbedding.measurableEmbedding
  have h : (∫ y in Set.Iic (a + s), f y ∂(Measure.map (fun t : ℝ => t + s) volume))
      = ∫ x in Set.preimage (fun t : ℝ => t + s) (Set.Iic (a + s)), f (x + s) :=
    hemb.setIntegral_map f (Set.Iic (a + s))
  rw [map_add_right_eq_self volume s] at h
  have hpre : Set.preimage (fun t : ℝ => t + s) (Set.Iic (a + s)) = Set.Iic a := by
    ext t
    simp [Set.mem_Iic]
  rw [hpre] at h
  exact h.symm

theorem integrable_normalPDF_comp_add (s : ℝ) :
    Integrable (fun t => normalPDF (t + s)) := by
  have hemb : MeasurableEmbedding (fun t : ℝ => t + s) :=
    (Homeomorph.addRight s).isClosedEmbedding.measurableEmbedding
  have h : Integrable normalPDF (Measure.map (fun t : ℝ => t + s) volume)
      ↔ Integrable (normalPDF ∘ fun t : ℝ => t + s) volume :=
    hemb.integrable_map_iff
  rw [map_add_right_eq_self volume s] at h
  simpa [Function.comp] using h.mp integrable_normalPDF

/-- Key Gaussian inequality behind non-negativity of the BSM call value:
shifting the CDF argument up by `s ≥ 0` costs at most the lognormal factor
`e^(s·a + s²/2)`. -/
theorem normCDF_le_exp_mul_normCDF (a s : ℝ) (hs : 0 ≤ s) :
    normCDF a ≤ Real.exp (s * a + s ^ 2 / 2) * normCDF (a + s) := by
  have htrans : normCDF (a + s) = ∫ t in Set.Iic a, normalPDF (t + s) :=
    (setIntegral_Iic_comp_add normalPDF a s).symm
  rw [htrans, ← MeasureTheory.integral_mul_left, normCDF]
  apply setIntegral_mono_on
  · exact integrable_normalPDF.integrableOn
  · exact ((integrable_normalPDF_comp_add s).const_mul _).integrableOn
  · exact measurableSet_Iic
  · intro t ht
    have ht' : t ≤ a := ht
    have hc : (0:ℝ) ≤ (Real.sqrt (2 * Real.pi))⁻¹ :=
      inv_nonneg.mpr (Real.sqrt_nonneg _)
    have hexp : Real.exp (-(1 / 2) * t ^ 2)
        ≤ Real.exp ((s * a + s ^ 2 / 2) + -(1 / 2) * (t + s) ^ 2) := by
      apply Real.exp_le_exp.mpr
      nlinarith [mul_nonneg hs (sub_nonneg.mpr ht')]
    calc normalPDF t
        = (Real.sqrt (2 * Real.pi))⁻¹ * Real.exp (-(1 / 2) * t ^ 2) := rfl
      _ ≤ (Real.sqrt (2 * Real.pi))⁻¹
            * Real.exp ((s * a + s ^ 2 / 2) + -(1 / 2) * (t + s) ^ 2) :=
          mul_le_mul_of_nonneg_left hexp hc
      _ = Real.exp (s * a + s ^ 2 / 2) * normalPDF (t + s) := by
          rw [normalPDF, Real.exp_add]
          ring

theorem normalPDF_neg (x : ℝ) : normalPDF (-x) = normalPDF x := by
  simp [normalPDF]

theorem normCDF_zero : normCDF 0 = 1 / 2 := by
  have hsym : ∫ t in Set.Iic (0:ℝ), normalPDF t = ∫ t in Set.Ioi (0:ℝ), normalPDF t := by
    have h := integral_comp_neg_Iic (0:ℝ) normalPDF
    simp only [normalPDF_neg, neg_zero] at h
    exact h
  have hsplit : (∫ t in Set.Iic (0:ℝ), normalPDF t)
      + ∫ t in Set.Ioi (0:ℝ), normalPDF t = 1 := by
    have h := MeasureTheory.integral_add_compl
      (measurableSet_Iic : MeasurableSet (Set.Iic (0:ℝ))) integrable_normalPDF
    rw [Set.compl_Iic] at h
    rw [h, integral_normalPDF]
  rw [normCDF]
  linarith [hsym, hsplit]

/-- Certified numeric lower bound `Φ(1) > 11/16`, via
`Φ(1) = 1/2 + ∫_(0,1] φ ≥ 1/2 + φ(1) > 1/2 + 3/16`. -/
theorem normCDF_one_gt : (11:ℝ) / 16 < normCDF 1 := by
  have hsplit : normCDF 1 = normCDF 0 + ∫ t in Set.Ioc (0:ℝ) 1, normalPDF t := by
    rw [normCDF, normCDF, ← MeasureTheory.setIntegral_union
      (Set.Iic_disjoint_Ioc le_rfl) measurableSet_Ioc
      integrable_normalPDF.integrableOn integrable_normalPDF.integrableOn,
      Set.Iic_union_Ioc_eq_Iic zero_le_one]
  have hconst : normalPDF 1 * (volume (Set.Ioc (0:ℝ) 1)).toReal
      ≤ ∫ t in Set.Ioc (0:ℝ) 1, normalPDF t := by
    apply setIntegral_ge_of_const_le measurableSet_Ioc
    · rw [Real.volume_Ioc]
      exact ENNReal.ofReal_ne_top
    · intro t ht
      have h1 : t ^ 2 ≤ 1 ^ 2 := by nlinarith [ht.1.le, ht.2]
      have : Real.exp (-(1 / 2) * 1 ^ 2) ≤ Real.exp (-(1 / 2) * t ^ 2) :=
        Real.exp_le_exp.mpr (by nlinarith)
      exact mul_le_mul_of_nonneg_left this (inv_nonneg.mpr (Real.sqrt_nonneg _))
    · exact integrable_normalPDF.integrableOn
  have hvol : (volume (Set.Ioc (0:ℝ) 1)).toReal = 1 := by
    rw [Real.volume_Ioc]
    norm_num
  have hpdf1 : (3:ℝ) / 16 < normalPDF 1 := by
    have hsqrt : Real.sqrt (2 * Real.pi) < 8 / 3 := by
      rw [Real.sqrt_lt' (by norm_num : (0:ℝ) < 8 / 3)]
      nlinarith [Real.pi_lt_d2]
    have hsqrt0 : 0 < Real.sqrt (2 * Real.pi) :=
      Real.sqrt_pos.mpr (by positivity)
    have hinv : (3:ℝ) / 8 < (Real.sqrt (2 * Real.pi))⁻¹ := by
      have := inv_strictAnti₀ hsqrt0 hsqrt
      rw [show ((8:ℝ) / 3)⁻¹ = 3 / 8 by norm_num] at this
      exact this
    have hexp : (1:ℝ) / 2 ≤ Real.exp (-(1 / 2) * 1 ^ 2) := by
      have := Real.add_one_le_exp (-(1 / 2) * 1 ^ 2)
      linarith
    have hexp_pos : (0:ℝ) < Real.exp (-(1 / 2) * 1 ^ 2) := Real.exp_pos _
    calc (3:ℝ) / 16 = 3 / 8 * (1 / 2) := by norm_num
      _ < (Real.sqrt (2 * Real.pi))⁻¹ * Real.exp (-(1 / 2) * 1 ^ 2) := by
          apply mul_lt_mul hinv hexp (by norm_num) (le_of_lt (inv_pos.mpr hsqrt0))
      _ = normalPDF 1 := rfl
  rw [hsplit, normCDF_zero]
  rw [hvol, mul_one] at hconst
  linarith [hconst, hpdf1]

/-- The Black-Scholes-Merton call formula is non-negative for positive
spot, strike, maturity and volatility. -/
theorem call_price_nonneg (S X T r q sigma : ℝ)
    (hS : 0 < S) (hX : 0 < X) (hT : 0 < T) (hsig : 0 < sigma) :
    0 ≤ call_price S X T r q sigma := by
  obtain ⟨u, hu0, rfl⟩ : ∃ u : ℝ, 0 < u ∧ u ^ 2 = T :=
    ⟨Real.sqrt T, Real.sqrt_pos.mpr hT, Real.sq_sqrt hT.le⟩
  have hru : Real.sqrt (u ^ 2) = u := Real.sqrt_sq hu0.le
  have hs : 0 < sigma * u := mul_pos hsig hu0
  have hkey := normCDF_le_exp_mul_normCDF (d2 S X (u ^ 2) r q sigma) (sigma * u) hs.le
  have hd12 : d1 S X (u ^ 2) r q sigma = d2 S X (u ^ 2) r q sigma + sigma * u := by
    rw [d2, hru]
    ring
  have hm : sigma * u * d2 S X (u ^ 2) r q sigma + (sigma * u) ^ 2 / 2
      = Real.log (S / X) + (r - q) * u ^ 2 := by
    rw [d2, d1, hru]
    have hne : sigma * u ≠ 0 := ne_of_gt hs
    field_simp
    ring
  have hexpid : Real.exp (-r * u ^ 2) * Real.exp ((r - q) * u ^ 2)
      = Real.exp (-q * u ^ 2) := by
    rw [← Real.exp_add]
    congr 1
    ring
  have hid : X * Real.exp (-r * u ^ 2)
      * Real.exp (sigma * u * d2 S X (u ^ 2) r q sigma + (sigma * u) ^ 2 / 2)
      = S * Real.exp (-q * u ^ 2) := by
    rw [hm, Real.exp_add, Real.exp_log (div_pos hS hX)]
    have hXne : X ≠ 0 := ne_of_gt hX
    calc X * Real.exp (-r * u ^ 2) * (S / X * Real.exp ((r - q) * u ^ 2))
        = S * (Real.exp (-r * u ^ 2) * Real.exp ((r - q) * u ^ 2)) := by
          field_simp
          ring
      _ = S * Real.exp (-q * u ^ 2) := by rw [hexpid]
  have hB : (0:ℝ) ≤ X * Real.exp (-r * u ^ 2) := by positivity
  have h1 := mul_le_mul_of_nonneg_left hkey hB
  rw [← mul_assoc, hid] at h1
  rw [call_price, hd12]
  linarith [h1]

/- ### Claim theorems -/

/-- C1: for positive S, X, T, sigma and n_simulations ≥ 1, the returned
option_price equals the convex blend `(1-p)*call_price + p*mean` where the
mean ranges over the pointwise-floored payoffs
`max (k*prices[i] + (1-k)*values[i]) 0`, and that mean is non-negative. -/
theorem claim_C1 (S X T r q sigma k p : ℝ) (n : ℕ) (z : ℕ → ℝ)
    (hS : 0 < S) (hX : 0 < X) (hT : 0 < T) (hsig : 0 < sigma) (hn : 1 ≤ n) :
    snowball_option S X T r q sigma k p n z
      = (1 - p) * call_price S X T r q sigma
        + p * ((∑ i in Finset.range n,
            max (k * prices S T r sigma k z i
              + (1 - k) * values S X T r q sigma k n z i) 0) / n)
    ∧ 0 ≤ (∑ i in Finset.range n,
        max (k * prices S T r sigma k z i
          + (1 - k) * values S X T r q sigma k n z i) 0) / n := by
  constructor
  · rfl
  · apply div_nonneg
    · exact Finset.sum_nonneg fun i _ => le_max_right _ _
    · exact Nat.cast_nonneg n

/-- Witness for C1 at S = X = T = sigma = 1, r = q = 0, k = p = 0, n = 1,
all draws zero. -/
theorem claim_C1_witness :
    snowball_option 1 1 1 0 0 1 0 0 1 (fun _ => 0)
      = (1 - 0) * call_price 1 1 1 0 0 1
        + 0 * ((∑ i in Finset.range 1,
            max (0 * prices 1 1 0 1 0 (fun _ => 0) i
              + (1 - 0) * values 1 1 1 0 0 1 0 1 (fun _ => 0) i) 0) / ((1 : ℕ) : ℝ))
    ∧ 0 ≤ (∑ i in Finset.range 1,
        max (0 * prices 1 1 0 1 0 (fun _ => 0) i
          + (1 - 0) * values 1 1 1 0 0 1 0 1 (fun _ => 0) i) 0) / ((1 : ℕ) : ℝ) :=
  claim_C1 1 1 1 0 0 1 0 0 1 (fun _ => 0) one_pos one_pos one_pos one_pos le_rfl

/-- C2: for positive S, X, T, sigma the baseline call_price equals the
closed-form Black-Scholes-Merton call value with Φ the standard normal CDF;
by construction `call_price` is a function of (S, X, T, r, q, sigma) alone,
so it depends neither on the loop index nor on any random draw. -/
theorem claim_C2 (S X T r q sigma : ℝ)
    (hS : 0 < S) (hX : 0 < X) (hT : 0 < T) (hsig : 0 < sigma) :
    call_price S X T r q sigma = bsmCallSpec S X T r q sigma :=
  call_price_eq_spec S X T r q sigma

/-- Witness for C2 at S = X = T = sigma = 1, r = q = 0. -/
theorem claim_C2_witness : call_price 1 1 1 0 0 1 = bsmCallSpec 1 1 1 0 0 1 :=
  claim_C2 1 1 1 0 0 1 one_pos one_pos one_pos one_pos

/-- C3: each simulation step draws `r_i = mean + sd * z i` with mean
`(r - 0.5σ²)T/365` and standard deviation `σ√(T/365)` (the 365-day
convention), sets `prices[i] = S(1 + k r_i)`, and computes `values[i]` by the
same BSM call formula with `prices[i]` in place of S and `T - i*T/n` in
place of T, with r, q, sigma, X unchanged. -/
theorem claim_C3 (S X T r q sigma k : ℝ) (n : ℕ) (z : ℕ → ℝ) (i : ℕ) (hi : i < n) :
    prices S T r sigma k z i
      = S * (1 + k * ((r - 0.5 * sigma ^ 2) * T / 365 + sigma * Real.sqrt (T / 365) * z i))
    ∧ values S X T r q sigma k n z i
      = bsmCallSpec (prices S T r sigma k z i) X (T - i * T / n) r q sigma := by
  refine ⟨rfl, ?_⟩
  rw [values, call_price_eq_spec]
  rfl

/-- Witness for C3 at S = X = T = sigma = 1, r = q = 0, k = 0, n = 1, i = 0,
all draws zero. -/
theorem claim_C3_witness :
    prices 1 1 0 1 0 (fun _ => 0) 0
      = 1 * (1 + 0 * ((0 - 0.5 * 1 ^ 2) * 1 / 365
          + 1 * Real.sqrt (1 / 365) * (fun _ => (0 : ℝ)) 0))
    ∧ values 1 1 1 0 0 1 0 1 (fun _ => 0) 0
      = bsmCallSpec (prices 1 1 0 1 0 (fun _ => 0) 0) 1
          (1 - ((0 : ℕ) : ℝ) * 1 / ((1 : ℕ) : ℝ)) 0 0 1 :=
  claim_C3 1 1 1 0 0 1 0 1 (fun _ => 0) 0 Nat.one_pos

/-- C4 (code bug): the source performs no parameter validation; at the
spec's failing input T = 0 (with S = X = sigma = 1, r = q = 0, k = p = 0,
n = 1) it evaluates the formulas — dividing by `sigma * sqrt T = 0` — and
returns an ordinary result instead of raising InvalidParameter. In IEEE
floats the division 0/0 makes the result NaN; in the real-valued model the
junk value of the division is 0 and the function returns `Except.ok 0`. -/
theorem claim_C4 : snowball_option_run 1 1 0 0 0 1 0 0 1 (fun _ => 0) = Except.ok 0 := by
  have h1 : d1 1 1 0 0 0 1 = 0 := by norm_num [d1]
  have h2 : d2 1 1 0 0 0 1 = 0 := by norm_num [d2, h1]
  have hc : call_price 1 1 0 0 0 1 = 0 := by
    simp [call_price, h1, h2]
  norm_num [snowball_option_run, snowball_option, hc]

/-- C5: with execution probability p = 0 the returned option_price equals
the baseline call_price exactly, for every n_simulations and every
realization of the draws. -/
theorem claim_C5 (S X T r q sigma k : ℝ) (n : ℕ) (z : ℕ → ℝ)
    (hS : 0 < S) (hX : 0 < X) (hT : 0 < T) (hsig : 0 < sigma) (hn : 1 ≤ n) :
    snowball_option S X T r q sigma k 0 n z = call_price S X T r q sigma := by
  simp [snowball_option]

/-- Witness for C5 at S = X = T = sigma = 1, r = q = 0, k = 0, n = 1. -/
theorem claim_C5_witness :
    snowball_option 1 1 1 0 0 1 0 0 1 (fun _ => 0) = call_price 1 1 1 0 0 1 :=
  claim_C5 1 1 1 0 0 1 0 1 (fun _ => 0) one_pos one_pos one_pos one_pos le_rfl

/-- C7: the remaining maturity of draw i is `tau = T - i*T/n`; it strictly
decreases as i grows, stays positive for every executed draw i < n (so the
divisor `sigma * sqrt tau` of d1_i is nonzero), and the degenerate call
n_simulations = 1 uses the full maturity `tau = T` for its single draw. -/
theorem claim_C7 (T sigma : ℝ) (hT : 0 < T) (hsig : 0 < sigma) (n : ℕ) (hn : 1 ≤ n)
    (i : ℕ) (hi : i < n) :
    tau T n i = T - i * T / n
    ∧ 0 < tau T n i
    ∧ sigma * Real.sqrt (tau T n i) ≠ 0
    ∧ (∀ j : ℕ, j < i → tau T n i < tau T n j)
    ∧ tau T 1 0 = T := by
  have hpos := tau_pos hT hi
  refine ⟨rfl, hpos, ?_, ?_, ?_⟩
  · exact mul_ne_zero (ne_of_gt hsig) (Real.sqrt_ne_zero'.mpr hpos)
  · intro j hj
    exact tau_strict_anti hT hj hi
  · simp [tau]

/-- Witness for C7 at T = sigma = 1, n = 1, i = 0. -/
theorem claim_C7_witness :
    tau 1 1 0 = 1 - ((0 : ℕ) : ℝ) * 1 / ((1 : ℕ) : ℝ)
    ∧ 0 < tau 1 1 0
    ∧ 1 * Real.sqrt (tau 1 1 0) ≠ 0
    ∧ (∀ j : ℕ, j < 0 → tau 1 1 0 < tau 1 1 j)
    ∧ tau 1 1 0 = 1 :=
  claim_C7 1 1 one_pos one_pos 1 le_rfl 0 Nat.one_pos

/-- C8: with k = 0 the floor inside the mean is a no-op — every `values[i]`
is itself a BSM call price at positive spot `S`, positive remaining
maturity and positive volatility, hence non-negative — so the returned
option_price equals `(1-p)*call_price + p*mean(values)` with no max. -/
theorem claim_C8 (S X T r q sigma p : ℝ) (n : ℕ) (z : ℕ → ℝ)
    (hS : 0 < S) (hX : 0 < X) (hT : 0 < T) (hsig : 0 < sigma) (hn : 1 ≤ n) :
    snowball_option S X T r q sigma 0 p n z
      = (1 - p) * call_price S X T r q sigma
        + p * ((∑ i in Finset.range n, values S X T r q sigma 0 n z i) / n)
    ∧ (∀ i, i < n → 0 ≤ values S X T r q sigma 0 n z i) := by
  have hval : ∀ i, i < n → 0 ≤ values S X T r q sigma 0 n z i := by
    intro i hi
    have hp : prices S T r sigma 0 z i = S := by simp [prices, S_i]
    rw [values, hp]
    exact call_price_nonneg S X (tau T n i) r q sigma hS hX (tau_pos hT hi) hsig
  refine ⟨?_, hval⟩
  rw [snowball_option]
  congr 1
  congr 1
  congr 1
  apply Finset.sum_congr rfl
  intro i hi
  have hi' : i < n := Finset.mem_range.mp hi
  rw [payoff]
  simp only [zero_mul, zero_add, sub_zero, one_mul]
  exact max_eq_left (hval i hi')

/-- Witness for C8 at S = X = T = sigma = 1, r = q = 0, p = 1, n = 1,
all draws zero. -/
theorem claim_C8_witness :
    snowball_option 1 1 1 0 0 1 0 1 1 (fun _ => 0)
      = (1 - 1) * call_price 1 1 1 0 0 1
        + 1 * ((∑ i in Finset.range 1, values 1 1 1 0 0 1 0 1 (fun _ => 0) i) / ((1 : ℕ) : ℝ))
    ∧ (∀ i, i < 1 → 0 ≤ values 1 1 1 0 0 1 0 1 (fun _ => 0) i) :=
  claim_C8 1 1 1 0 0 1 1 1 (fun _ => 0) one_pos one_pos one_pos one_pos le_rfl

/-- C6 counterexample: at S = X = 1, T = 365, r = 1/2, sigma = 1, k = 1,
n = 1 and the realization z ≡ -2 (a single standard normal draw equal to
-2, so `r_0 = -2`), the simulated price is `S_0 = 1*(1 + 1*(-2)) = -1` and
the logarithm argument `S_0/X = -1` is negative: the float computation of
`value_0` silently yields NaN although the claim's parameter hypotheses
all hold. The claim is therefore false as stated. -/
theorem claim_C6_counterexample :
    (0:ℝ) < 1 ∧ (0:ℝ) < 365 ∧ (1:ℕ) ≤ 1
    ∧ ¬ value_defined 1 1 365 (1 / 2) 1 1 1 (fun _ => -2) 0 := by
  refine ⟨one_pos, by norm_num, le_rfl, ?_⟩
  intro h
  have h1 := h.1
  norm_num [prices, S_i, r_i, Real.sqrt_one] at h1

/-- C6 (amended): the claim holds for every realization in which each draw
keeps the snowballed factor `1 + k*r_i` positive (in particular whenever
k = 0): then every `prices[i]/X` is positive and the divisor
`sigma*sqrt(tau)` nonzero, so each `value_i` is a well-defined real number
and no NaN enters the mean or the returned option_price. -/
theorem claim_C6_amended (S X T r sigma k : ℝ) (n : ℕ) (z : ℕ → ℝ)
    (hS : 0 < S) (hX : 0 < X) (hT : 0 < T) (hsig : 0 < sigma) (hn : 1 ≤ n)
    (hk : ∀ i, i < n → 0 < 1 + k * r_i r sigma T (z i)) :
    ∀ i, i < n → value_defined S X T r sigma k n z i := by
  intro i hi
  constructor
  · apply div_pos _ hX
    rw [prices, S_i]
    exact mul_pos hS (hk i hi)
  · exact mul_ne_zero (ne_of_gt hsig) (Real.sqrt_ne_zero'.mpr (tau_pos hT hi))

/-- Witness for the amended C6 at S = X = T = sigma = 1, r = 0, k = 0,
n = 1, all draws zero. -/
theorem claim_C6_amended_witness :
    (∀ i, i < 1 → (0:ℝ) < 1 + 0 * r_i 0 1 1 ((fun _ => (0:ℝ)) i))
    ∧ ∀ i, i < 1 → value_defined 1 1 1 0 1 0 1 (fun _ => 0) i :=
  ⟨fun i _ => by norm_num,
    claim_C6_amended 1 1 1 0 1 0 1 (fun _ => 0) one_pos one_pos one_pos one_pos le_rfl
      (fun i _ => by norm_num)⟩

/-- C10: with k = 0 the simulated price is `S*(1 + 0*r_i) = S` for every
draw, every `values[i]` depends only on (S, X, tau, r, q, sigma), and the
returned option_price is therefore identical for any two realizations of
the random draws. -/
theorem claim_C10 (S X T r q sigma p : ℝ) (n : ℕ)
    (hS : 0 < S) (hX : 0 < X) (hT : 0 < T) (hsig : 0 < sigma) (hn : 1 ≤ n)
    (z z' : ℕ → ℝ) :
    snowball_option S X T r q sigma 0 p n z = snowball_option S X T r q sigma 0 p n z' := by
  simp [snowball_option, payoff, values, prices, S_i]

/-- Witness for C10 at S = X = T = sigma = 1, r = q = 0, p = 1, n = 1,
with the all-zero and the all-one draw sequences. -/
theorem claim_C10_witness :
    snowball_option 1 1 1 0 0 1 0 1 1 (fun _ => 0)
      = snowball_option 1 1 1 0 0 1 0 1 1 (fun _ => 1) :=
  claim_C10 1 1 1 0 0 1 1 1 one_pos one_pos one_pos one_pos le_rfl (fun _ => 0) (fun _ => 1)

/-- C9 (amended): for p ∈ [0,1] the returned option_price lies between
`min(call_price, min_i payoff_i)` and `max(call_price, max_i payoff_i)`:
it is a convex combination of call_price and a mean of payoffs, and a mean
lies between the least and the greatest payoff. (The claim's stated lower
bound uses `max_i payoff_i`; that version is refuted by
the counterexample below, and `min_i payoff_i` is the repair.) -/
theorem claim_C9_amended (S X T r q sigma k p : ℝ) (n : ℕ) (z : ℕ → ℝ)
    (hS : 0 < S) (hX : 0 < X) (hT : 0 < T) (hsig : 0 < sigma)
    (hn : (Finset.range n).Nonempty) (hp0 : 0 ≤ p) (hp1 : p ≤ 1) :
    min (call_price S X T r q sigma)
        ((Finset.range n).inf' hn (payoff S X T r q sigma k n z))
      ≤ snowball_option S X T r q sigma k p n z
    ∧ snowball_option S X T r q sigma k p n z
      ≤ max (call_price S X T r q sigma)
          ((Finset.range n).sup' hn (payoff S X T r q sigma k n z)) := by
  have hnR : (0:ℝ) < n := by
    have hne : n ≠ 0 := Finset.nonempty_range_iff.mp hn
    exact_mod_cast Nat.pos_of_ne_zero hne
  set c := call_price S X T r q sigma with hc
  set lo := (Finset.range n).inf' hn (payoff S X T r q sigma k n z) with hlo_def
  set hgh := (Finset.range n).sup' hn (payoff S X T r q sigma k n z) with hhgh_def
  set m := (∑ i in Finset.range n, payoff S X T r q sigma k n z i) / n with hm
  have hform : snowball_option S X T r q sigma k p n z = (1 - p) * c + p * m := rfl
  have hsum_lo : (n:ℝ) * lo ≤ ∑ i in Finset.range n, payoff S X T r q sigma k n z i := by
    have h := Finset.card_nsmul_le_sum (Finset.range n)
      (payoff S X T r q sigma k n z) lo (fun i hi2 => Finset.inf'_le _ hi2)
    simpa [Finset.card_range, nsmul_eq_mul] using h
  have hsum_hgh : (∑ i in Finset.range n, payoff S X T r q sigma k n z i)
      ≤ (n:ℝ) * hgh := by
    have h := Finset.sum_le_card_nsmul (Finset.range n)
      (payoff S X T r q sigma k n z) hgh (fun i hi2 => Finset.le_sup' _ hi2)
    simpa [Finset.card_range, nsmul_eq_mul] using h
  have hml : lo ≤ m := by
    rw [hm, le_div_iff₀ hnR, mul_comm]
    exact hsum_lo
  have hmh : m ≤ hgh := by
    rw [hm, div_le_iff₀ hnR, mul_comm]
    exact hsum_hgh
  constructor
  · rw [hform]
    have e1 : (1 - p) * min c lo ≤ (1 - p) * c :=
      mul_le_mul_of_nonneg_left (min_le_left _ _) (by linarith)
    have e2 : p * min c lo ≤ p * m :=
      mul_le_mul_of_nonneg_left (le_trans (min_le_right _ _) hml) hp0
    calc min c lo = (1 - p) * min c lo + p * min c lo := by ring
      _ ≤ (1 - p) * c + p * m := add_le_add e1 e2
  · rw [hform]
    have e1 : (1 - p) * c ≤ (1 - p) * max c hgh :=
      mul_le_mul_of_nonneg_left (le_max_left _ _) (by linarith)
    have e2 : p * m ≤ p * max c hgh :=
      mul_le_mul_of_nonneg_left (le_trans hmh (le_max_right _ _)) hp0
    calc (1 - p) * c + p * m
        ≤ (1 - p) * max c hgh + p * max c hgh := add_le_add e1 e2
      _ = max c hgh := by ring

/-- Witness for the amended C9 at S = X = T = sigma = 1, r = q = 0,
k = 0, p = 1, n = 1, all draws zero. -/
theorem claim_C9_amended_witness :
    min (call_price 1 1 1 0 0 1)
        ((Finset.range 1).inf' (Finset.nonempty_range_iff.mpr one_ne_zero)
          (payoff 1 1 1 0 0 1 0 1 (fun _ => 0)))
      ≤ snowball_option 1 1 1 0 0 1 0 1 1 (fun _ => 0)
    ∧ snowball_option 1 1 1 0 0 1 0 1 1 (fun _ => 0)
      ≤ max (call_price 1 1 1 0 0 1)
          ((Finset.range 1).sup' (Finset.nonempty_range_iff.mpr one_ne_zero)
            (payoff 1 1 1 0 0 1 0 1 (fun _ => 0))) :=
  claim_C9_amended 1 1 1 0 0 1 0 1 1 (fun _ => 0) one_pos one_pos one_pos one_pos
    (Finset.nonempty_range_iff.mpr one_ne_zero) zero_le_one le_rfl

/-- C9 counterexample: at S = 4, X = T = sigma = 1, r = q = 0, k = p = 1,
n = 2, with draws chosen so that `r_0 = -1` and `r_1 = -1/8` (hence
`prices = [0, 7/2]`, payoffs `[0, 7/2]`), the returned option_price is the
mean 7/4, while `call_price = 4Φ(ln 4 + 1/2) - Φ(ln 4 - 1/2) > 7/4` and
`max_i payoff_i = 7/2 > 7/4`; the option price therefore lies strictly
below `min(call_price, max_i payoff_i)` and the claim's bound fails. -/
theorem claim_C9_counterexample :
    ¬ (min (call_price 4 1 1 0 0 1)
          ((Finset.range 2).sup' (Finset.nonempty_range_iff.mpr two_ne_zero)
            (payoff 4 1 1 0 0 1 1 2
              (fun i => if i = 0 then -(729 / 730) * Real.sqrt 365
                else -(361 / 2920) * Real.sqrt 365)))
        ≤ snowball_option 4 1 1 0 0 1 1 1 2
            (fun i => if i = 0 then -(729 / 730) * Real.sqrt 365
              else -(361 / 2920) * Real.sqrt 365)
      ∧ snowball_option 4 1 1 0 0 1 1 1 2
            (fun i => if i = 0 then -(729 / 730) * Real.sqrt 365
              else -(361 / 2920) * Real.sqrt 365)
        ≤ max (call_price 4 1 1 0 0 1)
            ((Finset.range 2).sup' (Finset.nonempty_range_iff.mpr two_ne_zero)
              (payoff 4 1 1 0 0 1 1 2
                (fun i => if i = 0 then -(729 / 730) * Real.sqrt 365
                  else -(361 / 2920) * Real.sqrt 365)))) := by
  have hS365 : Real.sqrt 365 ≠ 0 := Real.sqrt_ne_zero'.mpr (by norm_num)
  have hsqrtdiv : Real.sqrt ((1:ℝ) / 365) = (Real.sqrt 365)⁻¹ := by
    rw [show (1:ℝ) / 365 = (365:ℝ)⁻¹ by norm_num, Real.sqrt_inv]
  have hr0 : r_i 0 1 1 (-(729 / 730 * Real.sqrt 365)) = -1 := by
    rw [r_i, hsqrtdiv]
    field_simp
    ring
  have hr1 : r_i 0 1 1 (-(361 / 2920 * Real.sqrt 365)) = -(1 / 8) := by
    rw [r_i, hsqrtdiv]
    field_simp
    ring
  have hprice0 : prices 4 1 0 1 1
      (fun i => if i = 0 then -(729 / 730) * Real.sqrt 365
        else -(361 / 2920) * Real.sqrt 365) 0 = 0 := by
    rw [prices, S_i]
    norm_num [hr0]
  have hprice1 : prices 4 1 0 1 1
      (fun i => if i = 0 then -(729 / 730) * Real.sqrt 365
        else -(361 / 2920) * Real.sqrt 365) 1 = 7 / 2 := by
    rw [prices, S_i]
    norm_num [hr1]
  have hpay0 : payoff 4 1 1 0 0 1 1 2
      (fun i => if i = 0 then -(729 / 730) * Real.sqrt 365
        else -(361 / 2920) * Real.sqrt 365) 0 = 0 := by
    rw [payoff, hprice0]
    norm_num
  have hpay1 : payoff 4 1 1 0 0 1 1 2
      (fun i => if i = 0 then -(729 / 730) * Real.sqrt 365
        else -(361 / 2920) * Real.sqrt 365) 1 = 7 / 2 := by
    rw [payoff, hprice1]
    norm_num
  have hopt : snowball_option 4 1 1 0 0 1 1 1 2
      (fun i => if i = 0 then -(729 / 730) * Real.sqrt 365
        else -(361 / 2920) * Real.sqrt 365) = 7 / 4 := by
    rw [snowball_option, Finset.sum_range_succ, Finset.sum_range_one, hpay0, hpay1]
    norm_num
  have hd1v : d1 4 1 1 0 0 1 = Real.log 4 + 1 / 2 := by
    rw [d1]
    norm_num [Real.sqrt_one]
  have hd2v : d2 4 1 1 0 0 1 = Real.log 4 - 1 / 2 := by
    rw [d2, hd1v]
    norm_num [Real.sqrt_one]
    ring
  have hlog4 : (1:ℝ) / 2 ≤ Real.log 4 := by
    rw [Real.le_log_iff_exp_le (by norm_num : (0:ℝ) < 4)]
    calc Real.exp (1 / 2) ≤ Real.exp 1 := Real.exp_le_exp.mpr (by norm_num)
      _ ≤ 2.7182818286 := Real.exp_one_lt_d9.le
      _ ≤ 4 := by norm_num
  have hcall : (7:ℝ) / 4 < call_price 4 1 1 0 0 1 := by
    rw [call_price, hd1v, hd2v]
    have h1 : normCDF 1 ≤ normCDF (Real.log 4 + 1 / 2) := normCDF_mono (by linarith)
    have h2 : normCDF (Real.log 4 - 1 / 2) ≤ 1 := normCDF_le_one _
    have h3 := normCDF_one_gt
    norm_num
    nlinarith [h1, h2, h3]
  have hsup : (Finset.range 2).sup' (Finset.nonempty_range_iff.mpr two_ne_zero)
      (payoff 4 1 1 0 0 1 1 2
        (fun i => if i = 0 then -(729 / 730) * Real.sqrt 365
          else -(361 / 2920) * Real.sqrt 365)) = 7 / 2 := by
    apply le_antisymm
    · apply Finset.sup'_le
      intro b hb
      have hb2 : b < 2 := Finset.mem_range.mp hb
      interval_cases b
      · rw [hpay0]
        norm_num
      · rw [hpay1]
    · have h := Finset.le_sup'
        (payoff 4 1 1 0 0 1 1 2
          (fun i => if i = 0 then -(729 / 730) * Real.sqrt 365
            else -(361 / 2920) * Real.sqrt 365))
        (Finset.mem_range.mpr (by norm_num : (1:ℕ) < 2))
      rw [hpay1] at h
      exact h
  rintro ⟨hlow, -⟩
  rw [hopt, hsup] at hlow
  have : (7:ℝ) / 4 < min (call_price 4 1 1 0 0 1) (7 / 2) :=
    lt_min hcall (by norm_num)
  linarith

end Snowball
